import Mathlib

/-!
Verification of FuzzyFindJS core matching against its specification.

The data model and the seven matching strategies are shallowly embedded
from src/core/types.ts and src/core/matchers.ts; configuration handling
from src/core/config.ts; language auto-detection from the language
detection utility. JS Map objects become insertion-ordered association
lists, JS numbers become Int (or Rat for the threshold), and fallible
operations return Except. The similarity primitives module
(src/algorithms/levenshtein.ts) and the search pipeline (src/core/index.ts)
are not among the repository files; definitions modelled from the spec
say so in their doc comments.
-/

namespace FuzzyFindJS

/-! String helpers mirroring the JS string operations used by the code. -/

/-- JS s.includes(p), decided on the character lists. -/
def strIncludes (s p : String) : Bool := decide (p.toList <:+: s.toList)

/-- JS s.startsWith(p), decided on the character lists. -/
def strStartsWith (s p : String) : Bool := p.toList.isPrefixOf s.toList

/-- JS s.toLowerCase(), as a character map (ASCII case folding). -/
def strToLower (s : String) : String := String.mk (s.toList.map Char.toLower)

/-- JS s.split(sep) for a one-character separator, on character lists. -/
def splitOnChar (sep : Char) : List Char → List (List Char)
  | [] => [[]]
  | c :: rest =>
    if c = sep then [] :: splitOnChar sep rest
    else
      match splitOnChar sep rest with
      | [] => [[c]]
      | h :: t => (c :: h) :: t

/-! Data model, from src/core/types.ts. Match types and features are the
string literals the code compares against. -/

structure SearchMatch where
  word : String
  normalized : String
  matchType : String
  editDistance : Option Int := none
  phoneticCode : Option String := none
  language : String
deriving DecidableEq, Repr

structure FuzzyConfig where
  languages : List String
  features : Option (List String) := none
  maxResults : Int
  minQueryLength : Int
  fuzzyThreshold : Rat
  maxEditDistance : Int
  ngramSize : Int
  wordBoundaries : Option Bool := none
deriving DecidableEq, Repr

structure LanguageProcessor where
  language : String
  supportedFeatures : List String
  getPhoneticCode : String → String

/-- A JS Map from strings to sets of base words (insertion-ordered
association list; the value list is the insertion-ordered set). -/
abbrev StrSetMap := List (String × List String)

/-- JS Map.get on a string-to-set map. -/
def smLookup : StrSetMap → String → Option (List String)
  | [], _ => none
  | p :: rest, k => if p.1 == k then some p.2 else smLookup rest k

structure FuzzyIndex where
  base : List String
  variantToBase : StrSetMap
  phoneticToBase : StrSetMap
  ngramIndex : StrSetMap
  synonymMap : StrSetMap
  config : FuzzyConfig

/-- The match map threaded through the strategies: a JS
Map(string, SearchMatch) as an insertion-ordered association list. -/
abbrev Matches := List (String × SearchMatch)

/-- JS Map.get. -/
def mapGet : Matches → String → Option SearchMatch
  | [], _ => none
  | p :: rest, k => if p.1 == k then some p.2 else mapGet rest k

/-- JS Map.has. -/
def mapHas (m : Matches) (k : String) : Bool := (mapGet m k).isSome

/-- JS Map.set: replace in place keeping position, else append. -/
def mapSet : Matches → String → SearchMatch → Matches
  | [], k, v => [(k, v)]
  | p :: rest, k, v => if p.1 == k then (k, v) :: rest else p :: mapSet rest k v

@[simp] theorem mapGet_nil (k : String) : mapGet [] k = none := rfl

@[simp] theorem mapGet_mapSet_self (m : Matches) (k : String) (v : SearchMatch) :
    mapGet (mapSet m k v) k = some v := by
  induction m with
  | nil => simp [mapSet, mapGet]
  | cons p rest ih =>
    by_cases h : p.1 = k
    · simp [mapSet, mapGet, h]
    · simp only [mapSet, mapGet]
      rw [if_neg (by simpa using h), mapGet, if_neg (by simpa using h)]
      exact ih

theorem mapGet_mapSet_of_ne (m : Matches) (k w : String) (v : SearchMatch)
    (h : k ≠ w) : mapGet (mapSet m k v) w = mapGet m w := by
  induction m with
  | nil => simp [mapSet, mapGet, h]
  | cons p rest ih =>
    by_cases hp : p.1 = k
    · simp [mapSet, mapGet, hp, h]
    · simp only [mapSet]
      rw [if_neg (by simpa using hp), mapGet, mapGet]
      by_cases hw : p.1 = w
      · simp [hw]
      · rw [if_neg (by simpa using hw), if_neg (by simpa using hw)]
        exact ih

/-- A foldl preserves any property each step preserves. -/
theorem foldl_preserve {γ : Type} (P : Matches → Prop)
    (step : Matches → γ → Matches) (l : List γ) (m : Matches)
    (h : ∀ acc x, P acc → P (step acc x)) (hm : P m) :
    P (l.foldl step m) := by
  induction l generalizing m with
  | nil => exact hm
  | cons x xs ih => exact ih (step m x) (h m x hm)

/-- A foldl preserves any property each step preserves for list members. -/
theorem foldl_preserve_mem {γ : Type} (P : Matches → Prop)
    (step : Matches → γ → Matches) (l : List γ) (m : Matches)
    (h : ∀ acc x, x ∈ l → P acc → P (step acc x)) (hm : P m) :
    P (l.foldl step m) := by
  induction l generalizing m with
  | nil => exact hm
  | cons x xs ih =>
    exact ih (step m x) (fun acc y hy hP => h acc y (List.mem_cons_of_mem x hy) hP)
      (h m x (List.mem_cons_self x xs) hm)

/-- Two folds agree when their steps agree pointwise on list members. -/
theorem foldl_congr_pointwise {γ : Type} (f g : Matches → γ → Matches) (l : List γ)
    (m : Matches) (h : ∀ acc x, x ∈ l → f acc x = g acc x) :
    l.foldl f m = l.foldl g m := by
  induction l generalizing m with
  | nil => rfl
  | cons x xs ih =>
    rw [List.foldl_cons, List.foldl_cons, h m x (List.mem_cons_self x xs)]
    exact ih (g m x) (fun acc y hy => h acc y (List.mem_cons_of_mem x hy))

/-! Configuration validation, from src/core/config.ts (validateConfig).
The TS function throws; the embedding returns the thrown message in
Except.error and Except.ok () where the TS function returns. -/

def validateConfig (config : FuzzyConfig) : Except String Unit :=
  if config.maxResults < 1 then
    Except.error "maxResults must be at least 1"
  else if config.minQueryLength < 1 then
    Except.error "minQueryLength must be at least 1"
  else if config.fuzzyThreshold < 0 ∨ 1 < config.fuzzyThreshold then
    Except.error "fuzzyThreshold must be between 0 and 1"
  else if config.maxEditDistance < 0 then
    Except.error "maxEditDistance must be non-negative"
  else if config.ngramSize < 2 then
    Except.error "ngramSize must be at least 2"
  else if config.languages.length = 0 then
    Except.error "At least one language must be specified"
  else
    Except.ok ()

/-! The seven matching strategies, from src/core/matchers.ts. Each inner
forEach/for-of loop becomes a named step function folded over the list,
so that the per-element behavior can be reasoned about directly. -/

/-- JS word character class backslash-w: ASCII letters, digits, underscore. -/
def isWordChar (c : Char) : Bool := c.isAlphanum || c == '_'

/-- Whether a JS regex word boundary sits at position i of s (out-of-range
neighbours count as non-word characters). -/
def boundaryAt (s : List Char) (i : Nat) : Bool :=
  let wAt : Nat → Bool := fun j =>
    match s.get? j with
    | some c => isWordChar c
    | none => false
  (if i = 0 then false else wAt (i - 1)) != wAt i

/-- Helper matchesWord of src/core/matchers.ts: the case-insensitive regex
backslash-b followed by the escaped query, tested on the lowercased word:
the lowercased query occurs at some word-boundary position. -/
def matchesWord (word query : String) (wordBoundaries : Bool) : Bool :=
  if !wordBoundaries then true
  else
    let wordLower := (strToLower word).toList
    let queryLower := (strToLower query).toList
    (List.range (wordLower.length + 1)).any fun i =>
      boundaryAt wordLower i && queryLower.isPrefixOf (wordLower.drop i)

/-- Backtracking match of the regex pieces separated by dot-star against s,
anchored at the end: s is gap1 ++ q1 ++ gap2 ++ q2 ++ ... with nothing
after the last piece. -/
def tailMatch : List Char → List (List Char) → Bool
  | s, [] => s.isEmpty
  | s, q :: rest =>
    (q.isPrefixOf s && tailMatch (s.drop q.length) rest)
    || (match s with
        | [] => false
        | _ :: s' => tailMatch s' (q :: rest))
termination_by s pieces => s.length + pieces.length
decreasing_by
  · simp only [List.length_drop, List.length_cons]
    omega
  · simp only [List.length_cons]
    omega

/-- Helper matchesWildcard of src/core/matchers.ts: the pattern split on
star, each piece escaped, joined by dot-star, anchored both ends,
case-insensitive. -/
def matchesWildcard (word pattern : String) : Bool :=
  match splitOnChar '*' (strToLower pattern).toList with
  | [] => false
  | p :: rest =>
    p.isPrefixOf (strToLower word).toList
      && tailMatch ((strToLower word).toList.drop p.length) rest

/-- The SearchMatch an exact match stores. -/
def exactSM (word normalized language : String) : SearchMatch :=
  { word := word, normalized := normalized, matchType := "exact",
    editDistance := some 0, language := language }

/-- Wildcard branch of findExactMatches: one base word. -/
def exactWildcardStep (query language : String) (acc : Matches) (baseWord : String) : Matches :=
  if matchesWildcard baseWord query then
    if !mapHas acc baseWord then mapSet acc baseWord (exactSM baseWord query language)
    else acc
  else acc

/-- Variant-map branch of findExactMatches: one word of the variant entry. -/
def exactVariantStep (query language : String) (wordBoundaries : Bool)
    (acc : Matches) (word : String) : Matches :=
  if wordBoundaries && !matchesWord word query wordBoundaries then acc
  else
    match mapGet acc word with
    | some existing =>
      if existing.matchType ≠ "exact" then mapSet acc word (exactSM word query language)
      else acc
    | none => mapSet acc word (exactSM word query language)

/-- Base-list branch of findExactMatches: one base word. -/
def exactBaseStep (query queryLower language : String) (acc : Matches) (baseWord : String) : Matches :=
  if strToLower baseWord == queryLower then
    if !mapHas acc baseWord then mapSet acc baseWord (exactSM baseWord query language)
    else acc
  else acc

def findExactMatches (query : String) (index : FuzzyIndex) (matchMap : Matches)
    (language : String) : Matches :=
  let wordBoundaries := index.config.wordBoundaries.getD false
  if strIncludes query "*" then
    index.base.foldl (exactWildcardStep query language) matchMap
  else
    let afterVariants :=
      match smLookup index.variantToBase (strToLower query) with
      | some exactMatches =>
        exactMatches.foldl (exactVariantStep query language wordBoundaries) matchMap
      | none => matchMap
    let queryLower := strToLower query
    index.base.foldl (exactBaseStep query queryLower language) afterVariants

/-- One word of a matching variant entry in findPrefixMatches. -/
def prefixAddWord (variant query language : String) (wordBoundaries : Bool)
    (acc : Matches) (word : String) : Matches :=
  if wordBoundaries && !matchesWord word query wordBoundaries then acc
  else if !mapHas acc word then
    mapSet acc word
      { word := word, normalized := variant, matchType := "prefix", language := language }
  else acc

/-- One variant entry in findPrefixMatches. -/
def prefixStep (query queryLower language : String) (wordBoundaries : Bool)
    (acc : Matches) (p : String × List String) : Matches :=
  if strStartsWith p.1 queryLower && p.1 != queryLower then
    p.2.foldl (prefixAddWord p.1 query language wordBoundaries) acc
  else acc

def findPrefixMatches (query : String) (index : FuzzyIndex) (matchMap : Matches)
    (language : String) : Matches :=
  let wordBoundaries := index.config.wordBoundaries.getD false
  let queryLower := strToLower query
  index.variantToBase.foldl (prefixStep query queryLower language wordBoundaries) matchMap

/-- The guard of findSubstringMatches on a variant: contains the query as a
substring, but neither as a prefix nor as the whole variant. -/
def substrCond (variant queryLower : String) : Bool :=
  strIncludes variant queryLower && !(strStartsWith variant queryLower)
    && variant != queryLower

/-- The existing-entry test shared by substring and fuzzy replacement: the
entry is absent, or neither exact nor prefix. -/
def notExactOrPrefix (o : Option SearchMatch) : Bool :=
  match o with
  | none => true
  | some existing => existing.matchType != "exact" && existing.matchType != "prefix"

/-- The SearchMatch a substring match stores. -/
def subSM (word variant language : String) : SearchMatch :=
  { word := word, normalized := variant, matchType := "substring", language := language }

/-- One word of a matching variant entry in findSubstringMatches. -/
def substringAddWord (variant language : String) (acc : Matches) (word : String) : Matches :=
  if notExactOrPrefix (mapGet acc word) then mapSet acc word (subSM word variant language)
  else acc

/-- One variant entry in findSubstringMatches. -/
def substringStep (queryLower language : String) (acc : Matches)
    (p : String × List String) : Matches :=
  if substrCond p.1 queryLower then p.2.foldl (substringAddWord p.1 language) acc
  else acc

def findSubstringMatches (query : String) (index : FuzzyIndex) (matchMap : Matches)
    (language : String) : Matches :=
  let queryLower := strToLower query
  if queryLower.length < 2 then matchMap
  else index.variantToBase.foldl (substringStep queryLower language) matchMap

/-- One word of the phonetic bucket in findPhoneticMatches. -/
def phoneticAddWord (query phoneticCode language : String) (acc : Matches)
    (word : String) : Matches :=
  if !mapHas acc word then
    mapSet acc word
      { word := word, normalized := query, matchType := "phonetic",
        phoneticCode := some phoneticCode, language := language }
  else acc

def findPhoneticMatches (query : String) (processor : LanguageProcessor)
    (index : FuzzyIndex) (matchMap : Matches) : Matches :=
  if !(processor.supportedFeatures.contains "phonetic") then matchMap
  else
    let phoneticCode := processor.getPhoneticCode query
    if phoneticCode != "" then
      match smLookup index.phoneticToBase phoneticCode with
      | some phoneticMatches =>
        phoneticMatches.foldl (phoneticAddWord query phoneticCode processor.language) matchMap
      | none => matchMap
    else matchMap

/-- One word of the synonym bucket in findSynonymMatches. -/
def synonymAddWord (query : String) (acc : Matches) (word : String) : Matches :=
  if !mapHas acc word then
    mapSet acc word
      { word := word, normalized := query, matchType := "synonym", language := "synonym" }
  else acc

def findSynonymMatches (query : String) (index : FuzzyIndex) (matchMap : Matches) : Matches :=
  match smLookup index.synonymMap (strToLower query) with
  | some synonymMatches => synonymMatches.foldl (synonymAddWord query) matchMap
  | none => matchMap

/-- Set insertion into the candidateWords set of findNgramMatches
(JS Set.add: insertion-ordered, ignores duplicates). -/
def candAdd (cw : List String) (w : String) : List String :=
  if cw.contains w then cw else cw ++ [w]

/-- One query n-gram in findNgramMatches: union the bucket into the set. -/
def ngramCandStep (index : FuzzyIndex) (cw : List String) (ngram : String) : List String :=
  match smLookup index.ngramIndex ngram with
  | some ngramMatches => ngramMatches.foldl candAdd cw
  | none => cw

/-- The SearchMatch an n-gram match stores. -/
def ngramSM (word query language : String) : SearchMatch :=
  { word := word, normalized := query, matchType := "ngram", language := language }

/-- One candidate word in findNgramMatches. -/
def ngramAddWord (query language : String) (acc : Matches) (word : String) : Matches :=
  if !mapHas acc word then mapSet acc word (ngramSM word query language)
  else acc

/-- findNgramMatches, parametric in generateNgrams: that function lives in
src/algorithms/levenshtein.ts, which is not among the repository files. -/
def findNgramMatches (generateNgrams : String → Nat → List String) (query : String)
    (index : FuzzyIndex) (matchMap : Matches) (language : String) (ngramSize : Nat) : Matches :=
  if query.length < ngramSize then matchMap
  else
    let queryNgrams := generateNgrams query ngramSize
    let candidateWords := queryNgrams.foldl (ngramCandStep index) []
    candidateWords.foldl (ngramAddWord query language) matchMap

/-- The adaptive max distance at the head of findFuzzyMatches: the two
short-query branches of the mutation chain (both raise to at least 2). -/
def fuzzyEffectiveMaxDistance (config : FuzzyConfig) (query : String) : Int :=
  if query.length ≤ 3 then max config.maxEditDistance 2
  else if query.length ≤ 4 then max config.maxEditDistance 2
  else config.maxEditDistance

/-- JS (existing.editDistance or-else Infinity) > distance: an undefined or
zero recorded distance is falsy, so it compares as Infinity. -/
def edOrInfGt (ed : Option Int) (distance : Int) : Bool :=
  match ed with
  | none => true
  | some v => v == 0 || distance < v

/-- The replacement guard of findFuzzyMatches: absent, or neither exact nor
prefix and with recorded distance (Infinity when falsy) above the new one. -/
def fuzzyReplaceOk (o : Option SearchMatch) (distance : Int) : Bool :=
  match o with
  | none => true
  | some existing =>
    existing.matchType != "exact" && existing.matchType != "prefix"
      && edOrInfGt existing.editDistance distance

/-- The SearchMatch a fuzzy match stores. -/
def fuzzySM (word variant : String) (distance : Int) (language : String) : SearchMatch :=
  { word := word, normalized := variant, matchType := "fuzzy",
    editDistance := some distance, language := language }

/-- One word of an accepted variant entry in findFuzzyMatches. -/
def fuzzyAddWord (variant : String) (distance : Int) (language : String)
    (acc : Matches) (word : String) : Matches :=
  if fuzzyReplaceOk (mapGet acc word) distance then
    mapSet acc word (fuzzySM word variant distance language)
  else acc

/-- One variant entry in findFuzzyMatches (source version): length
pre-filter, then bounded distance, then the adaptive threshold. -/
def fuzzyMaxLengthDiff (query : String) (maxDistance : Int) : Int :=
  if query.length ≤ 3 then 5 else if query.length ≤ 4 then 4 else maxDistance

def fuzzyStep (levFn damFn : String → String → Int → Int) (query : String)
    (useTranspositions : Bool) (maxDistance : Int) (language : String)
    (acc : Matches) (p : String × List String) : Matches :=
  let lengthDiff : Int := (((p.1.length : Int) - (query.length : Int)).natAbs : Int)
  let maxLengthDiff : Int := fuzzyMaxLengthDiff query maxDistance
  if lengthDiff ≤ maxLengthDiff then
    let distance :=
      if useTranspositions then damFn query p.1 maxDistance else levFn query p.1 maxDistance
    let distanceThreshold : Int := if query.length ≤ 3 then 2 else maxDistance
    if distance ≤ distanceThreshold then
      p.2.foldl (fuzzyAddWord p.1 distance language) acc
    else acc
  else acc

/-- findFuzzyMatches of src/core/matchers.ts, parametric in the two bounded
distance functions: calculateLevenshteinDistance and
calculateDamerauLevenshteinDistance live in src/algorithms/levenshtein.ts,
which is not among the repository files. -/
def findFuzzyMatches (levFn damFn : String → String → Int → Int) (query : String)
    (index : FuzzyIndex) (matchMap : Matches) (processor : LanguageProcessor)
    (config : FuzzyConfig) : Matches :=
  let maxDistance := fuzzyEffectiveMaxDistance config query
  let useTranspositions := (index.config.features.getD []).contains "transpositions"
  index.variantToBase.foldl
    (fuzzyStep levFn damFn query useTranspositions maxDistance processor.language) matchMap

/-! The compiled fuzzy matcher shipped in dist/esm/core/matchers.js, whose
adaptive policy differs from the source: an extra branch raises the max
distance for queries of length at least 10, and the length window is wider
for queries of length at least 5. -/

/-- The adaptive max distance of the dist findFuzzyMatches. -/
def distFuzzyEffectiveMaxDistance (config : FuzzyConfig) (query : String) : Int :=
  if query.length ≤ 3 then max config.maxEditDistance 2
  else if query.length ≤ 4 then max config.maxEditDistance 2
  else if 10 ≤ query.length then max config.maxEditDistance 3
  else config.maxEditDistance

/-- One variant entry in the dist findFuzzyMatches. -/
def distFuzzyMaxLengthDiff (query : String) (maxDistance : Int) : Int :=
  if query.length ≤ 4 then (if query.length ≤ 3 then 5 else 4)
  else if query.length ≤ 9 then maxDistance + 1
  else maxDistance + 2

def distFuzzyStep (levFn damFn : String → String → Int → Int) (query : String)
    (useTranspositions : Bool) (maxDistance : Int) (language : String)
    (acc : Matches) (p : String × List String) : Matches :=
  let lengthDiff : Int := (((p.1.length : Int) - (query.length : Int)).natAbs : Int)
  let maxLengthDiff : Int := distFuzzyMaxLengthDiff query maxDistance
  if lengthDiff ≤ maxLengthDiff then
    let distance :=
      if useTranspositions then damFn query p.1 maxDistance else levFn query p.1 maxDistance
    let distanceThreshold : Int := if query.length ≤ 3 then 2 else maxDistance
    if distance ≤ distanceThreshold then
      p.2.foldl (fuzzyAddWord p.1 distance language) acc
    else acc
  else acc

/-- findFuzzyMatches of dist/esm/core/matchers.js, parametric in the two
bounded distance functions as above. -/
def distFindFuzzyMatches (levFn damFn : String → String → Int → Int) (query : String)
    (index : FuzzyIndex) (matchMap : Matches) (processor : LanguageProcessor)
    (config : FuzzyConfig) : Matches :=
  let maxDistance := distFuzzyEffectiveMaxDistance config query
  let useTranspositions := (index.config.features.getD []).contains "transpositions"
  index.variantToBase.foldl
    (distFuzzyStep levFn damFn query useTranspositions maxDistance processor.language) matchMap

/-! Similarity primitives. Modelled from the spec (section 4.1): the module
src/algorithms/levenshtein.ts is not among the repository files. -/

/-- One Wagner-Fischer row: walk the previous row paired with the target
characters, carrying the fresh cell to the left. -/
def levRowAux (sc : Char) : List (Char × Nat × Nat) → Nat → List Nat
  | [], _ => []
  | (tc, pj, pj1) :: rest, cur =>
    let next := min (cur + 1) (min (pj1 + 1) (pj + (if sc == tc then 0 else 1)))
    next :: levRowAux sc rest next

/-- Wagner-Fischer final row for the edit distance between s and t. -/
def levFinalRow (s t : List Char) : List Nat :=
  s.foldl
    (fun prev sc =>
      let first := prev.headD 0 + 1
      first :: levRowAux sc (t.zip (prev.zip (prev.drop 1))) first)
    (List.range (t.length + 1))

/-- Modelled from the spec: exact Levenshtein distance, computed by dynamic
programming (src/algorithms/levenshtein.ts is not among the repository
files). -/
def levenshtein (s t : String) : Nat := (levFinalRow s.toList t.toList).getLastD 0

/-- Modelled from the spec: bounded edit distance aborts once the running
distance exceeds the supplied max bound and returns a sentinel rather than
the exact value; modelled as the exact distance capped at bound + 1. -/
def calculateLevenshteinDistance (a b : String) (maxDistance : Int) : Int :=
  let d : Int := (levenshtein a b : Int)
  if d ≤ maxDistance then d else maxDistance + 1

/-- Modelled from the spec: n-gram generation slides a fixed window across
the string; strings shorter than the window yield none
(src/algorithms/levenshtein.ts is not among the repository files). -/
def generateNgrams (s : String) (n : Nat) : List String :=
  let cs := s.toList
  if cs.length < n then []
  else (List.range (cs.length - n + 1)).map fun i => String.mk ((cs.drop i).take n)

/-! The search pipeline. Modelled from the spec (sections 4.3, 4.4 and 6):
src/core/index.ts (getSuggestions and the scorer) is not among the
repository files. The matcher pass runs the seven embedded strategies in
the spec's order; the scorer is parametric in the raw per-match scoring
policy, which the spec treats as tunable (section 9), and clamps, sorts
descending and truncates as section 4.4 states. -/

structure SuggestionResult where
  display : String
  baseWord : String
  isSynonym : Bool
  score : Rat
  language : Option String := none
deriving DecidableEq, Repr

/-- Modelled from the spec: run the seven strategies in the order of
section 4.3, merging into one match map. -/
def runMatchers (levFn damFn : String → String → Int → Int)
    (gen : String → Nat → List String) (query : String) (index : FuzzyIndex)
    (processor : LanguageProcessor) : Matches :=
  let m1 := findExactMatches query index [] processor.language
  let m2 := findPrefixMatches query index m1 processor.language
  let m3 := findSubstringMatches query index m2 processor.language
  let m4 := findPhoneticMatches query processor index m3
  let m5 := findSynonymMatches query index m4
  let m6 := findNgramMatches gen query index m5 processor.language index.config.ngramSize.toNat
  findFuzzyMatches levFn damFn query index m6 processor index.config

/-- Modelled from the spec: final scores are clamped to the unit interval. -/
def clampScore (x : Rat) : Rat := max 0 (min 1 x)

/-- Modelled from the spec: turn each merged match into a caller-owned
result whose score is the clamped raw policy score. -/
def scoreMatches (policy : SearchMatch → Rat) (ms : Matches) : List SuggestionResult :=
  ms.map fun p =>
    { display := p.2.word, baseWord := p.1, isSynonym := p.2.matchType == "synonym",
      score := clampScore (policy p.2), language := some p.2.language }

/-- Descending order on results: the left score is at least the right one. -/
def scoreGE (a b : SuggestionResult) : Prop := b.score ≤ a.score

instance : DecidableRel scoreGE := fun a b => inferInstanceAs (Decidable (b.score ≤ a.score))

instance : IsTotal SuggestionResult scoreGE := ⟨fun a b => le_total b.score a.score⟩

instance : IsTrans SuggestionResult scoreGE := ⟨fun _ _ _ h1 h2 => le_trans h2 h1⟩

/-- Modelled from the spec: sort descending by score and truncate to the
requested maximum. -/
def rankResults (maxResults : Nat) (rs : List SuggestionResult) : List SuggestionResult :=
  (rs.insertionSort scoreGE).take maxResults

/-- Modelled from the spec: getSuggestions returns the empty sequence for a
query under the configured minimum length, and otherwise ranks the scored
output of the seven strategies (src/core/index.ts is not among the
repository files). -/
def getSuggestions (levFn damFn : String → String → Int → Int)
    (gen : String → Nat → List String) (policy : SearchMatch → Rat)
    (index : FuzzyIndex) (query : String) (maxResults : Nat)
    (processor : LanguageProcessor) : List SuggestionResult :=
  if (query.length : Int) < index.config.minQueryLength then []
  else rankResults maxResults (scoreMatches policy (runMatchers levFn damFn gen query index processor))

/-! Language auto-detection, from the language detection utility
(detectLanguages and sampleTextForDetection). -/

/-- German indicator characters. -/
def germanChars : List Char := "äöüßÄÖÜ".toList

/-- French indicator characters. -/
def frenchChars : List Char := "àâäæçéèêëïîôùûüÿœÀÂÄÆÇÉÈÊËÏÎÔÙÛÜŸŒ".toList

/-- Spanish indicator characters. -/
def spanishChars : List Char := "áéíóúñüÁÉÍÓÚÑÜ¿¡".toList

/-- detectLanguages of the language detection utility: empty or blank text
falls back to english; otherwise english always, plus one entry per
detected diacritic family, in Set insertion order. -/
def detectLanguages (text : String) : List String :=
  if text.toList.all Char.isWhitespace then ["english"]
  else
    let d1 := ["english"]
    let d2 := if text.toList.any (fun c => germanChars.contains c) then d1 ++ ["german"] else d1
    let d3 := if text.toList.any (fun c => frenchChars.contains c) then d2 ++ ["french"] else d2
    if text.toList.any (fun c => spanishChars.contains c) then d3 ++ ["spanish"] else d3

/-- An item handed to sampleTextForDetection: a string, an object whose
field values are kept when they are strings (none marks a non-string
value), or a null-ish item contributing nothing. -/
inductive SampleItem where
  | str (s : String)
  | obj (values : List (Option String))
  | nul
deriving DecidableEq, Repr

/-- The text one sampled item contributes. -/
def sampleItemText : SampleItem → String
  | SampleItem.str s => s
  | SampleItem.obj values => String.intercalate " " (values.filterMap id)
  | SampleItem.nul => ""

/-- The default sample size of sampleTextForDetection. -/
def defaultSampleSize : Nat := 100

/-- sampleTextForDetection of the language detection utility: join the text
of the first min(sampleSize, length) items. -/
def sampleTextForDetection (words : List SampleItem) (sampleSize : Nat) : String :=
  let sample := words.take (min sampleSize words.length)
  String.intercalate " " (sample.map sampleItemText)

/-! Shared concrete fixtures used by witnesses and counterexamples. -/

/-- A processor whose capability set has no phonetic feature. -/
def noPhonProc : LanguageProcessor :=
  { language := "english", supportedFeatures := ["partial-words"],
    getPhoneticCode := fun s => s }

/-- A processor supporting phonetic lookup. -/
def enProc : LanguageProcessor :=
  { language := "english", supportedFeatures := ["phonetic"],
    getPhoneticCode := fun _ => "APL" }

/-- A small valid configuration. -/
def cfgA : FuzzyConfig :=
  { languages := ["english"], features := some [], maxResults := 10,
    minQueryLength := 1, fuzzyThreshold := 33 / 100, maxEditDistance := 2,
    ngramSize := 3 }

/-- A small index over the single word apple. -/
def idxA : FuzzyIndex :=
  { base := ["apple"], variantToBase := [("apple", ["apple"])],
    phoneticToBase := [("APL", ["apple"])], ngramIndex := [("app", ["apple"])],
    synonymMap := [], config := cfgA }

/-! C3: configuration validation raises exactly on the out-of-range cases. -/

/-- C3: validateConfig returns an error if and only if maxResults < 1, or
minQueryLength < 1, or fuzzyThreshold lies outside the unit interval, or
maxEditDistance < 0, or ngramSize < 2, or the language list is empty; on
every other config it returns cleanly (and, returning only unit, it cannot
clamp or otherwise modify the config). -/
theorem validateConfig_error_iff (c : FuzzyConfig) :
    (∃ e, validateConfig c = Except.error e) ↔
      (c.maxResults < 1 ∨ c.minQueryLength < 1 ∨ c.fuzzyThreshold < 0 ∨
        1 < c.fuzzyThreshold ∨ c.maxEditDistance < 0 ∨ c.ngramSize < 2 ∨
        c.languages = []) := by
  unfold validateConfig
  split_ifs with h1 h2 h3 h4 h5 h6 <;> simp_all [List.length_eq_zero]
  tauto

/-! C8: a processor without the phonetic capability degrades the phonetic
strategy to no contribution. -/

/-- C8: when the processor's supportedFeatures has no phonetic entry,
findPhoneticMatches returns the match map unchanged (being a total
function, the embedding also returns rather than raising). -/
theorem findPhoneticMatches_no_phonetic_feature (query : String)
    (processor : LanguageProcessor) (index : FuzzyIndex) (m : Matches)
    (h : processor.supportedFeatures.contains "phonetic" = false) :
    findPhoneticMatches query processor index m = m := by
  unfold findPhoneticMatches
  rw [h]
  simp

/-- Witness for C8 at a concrete processor and index whose phonetic bucket
would otherwise match. -/
theorem findPhoneticMatches_no_phonetic_feature_witness :
    noPhonProc.supportedFeatures.contains "phonetic" = false ∧
      findPhoneticMatches "apl" noPhonProc idxA [] = [] :=
  ⟨rfl, findPhoneticMatches_no_phonetic_feature "apl" noPhonProc idxA [] rfl⟩

/-! C9: sampling and the default-language floor of auto-detection. -/

/-- C9: sampleTextForDetection reads only the first min(sampleSize, length)
items, the default sample size is 100, and detectLanguages always contains
english (so is never empty), even for empty or diacritic-free text. -/
theorem language_detection_sampling :
    (∀ (ws extra : List SampleItem) (n : Nat), n ≤ ws.length →
        sampleTextForDetection (ws ++ extra) n = sampleTextForDetection ws n)
    ∧ defaultSampleSize = 100
    ∧ ∀ text : String, "english" ∈ detectLanguages text ∧ detectLanguages text ≠ [] := by
  refine ⟨?_, rfl, ?_⟩
  · intro ws extra n hn
    unfold sampleTextForDetection
    have h1 : min n (ws ++ extra).length = n := by
      simp only [List.length_append]; omega
    have h2 : min n ws.length = n := by omega
    rw [h1, h2, List.take_append_of_le_length hn]
  · intro text
    unfold detectLanguages
    split_ifs <;> simp [List.mem_append]

/-- Witness for C9: appending an item past the sample window does not
change the sampled text, and diacritic-free text still detects english. -/
theorem language_detection_sampling_witness :
    sampleTextForDetection ([SampleItem.str "ab"] ++ [SampleItem.str "cd"]) 1 =
        sampleTextForDetection [SampleItem.str "ab"] 1
      ∧ "english" ∈ detectLanguages "hello" :=
  ⟨language_detection_sampling.1 [SampleItem.str "ab"] [SampleItem.str "cd"] 1 (by decide),
    (language_detection_sampling.2.2 "hello").1⟩

/-! Preservation lemmas: which strategies can touch an existing entry. -/

theorem mapGet_mapSet_absent (acc : Matches) (word w : String) (v sm : SearchMatch)
    (h : mapGet acc w = some sm) (habs : mapHas acc word = false) :
    mapGet (mapSet acc word v) w = some sm := by
  by_cases hw : word = w
  · subst hw; simp [mapHas, h] at habs
  · rw [mapGet_mapSet_of_ne _ _ _ _ hw]; exact h

theorem prefixAddWord_preserves (variant query language : String) (wb : Bool)
    (acc : Matches) (word w : String) (sm : SearchMatch) (h : mapGet acc w = some sm) :
    mapGet (prefixAddWord variant query language wb acc word) w = some sm := by
  unfold prefixAddWord
  split_ifs with h1 h2
  · exact h
  · exact mapGet_mapSet_absent _ _ _ _ _ h (by simpa using h2)
  · exact h

theorem phoneticAddWord_preserves (query phoneticCode language : String)
    (acc : Matches) (word w : String) (sm : SearchMatch) (h : mapGet acc w = some sm) :
    mapGet (phoneticAddWord query phoneticCode language acc word) w = some sm := by
  unfold phoneticAddWord
  split_ifs with h1
  · exact mapGet_mapSet_absent _ _ _ _ _ h (by simpa using h1)
  · exact h

theorem synonymAddWord_preserves (query : String) (acc : Matches) (word w : String)
    (sm : SearchMatch) (h : mapGet acc w = some sm) :
    mapGet (synonymAddWord query acc word) w = some sm := by
  unfold synonymAddWord
  split_ifs with h1
  · exact mapGet_mapSet_absent _ _ _ _ _ h (by simpa using h1)
  · exact h

theorem ngramAddWord_preserves (query language : String) (acc : Matches)
    (word w : String) (sm : SearchMatch) (h : mapGet acc w = some sm) :
    mapGet (ngramAddWord query language acc word) w = some sm := by
  unfold ngramAddWord
  split_ifs with h1
  · exact mapGet_mapSet_absent _ _ _ _ _ h (by simpa using h1)
  · exact h

theorem substringAddWord_preserves_ep (variant language : String) (acc : Matches)
    (word w : String) (sm : SearchMatch) (h : mapGet acc w = some sm)
    (hep : sm.matchType = "exact" ∨ sm.matchType = "prefix") :
    mapGet (substringAddWord variant language acc word) w = some sm := by
  unfold substringAddWord
  split_ifs with h1
  · by_cases hw : word = w
    · subst hw
      rw [h] at h1
      rcases hep with he | he <;> simp [notExactOrPrefix, he] at h1
    · rw [mapGet_mapSet_of_ne _ _ _ _ hw]; exact h
  · exact h

theorem fuzzyAddWord_preserves_ep (variant : String) (distance : Int) (language : String)
    (acc : Matches) (word w : String) (sm : SearchMatch) (h : mapGet acc w = some sm)
    (hep : sm.matchType = "exact" ∨ sm.matchType = "prefix") :
    mapGet (fuzzyAddWord variant distance language acc word) w = some sm := by
  unfold fuzzyAddWord
  split_ifs with h1
  · by_cases hw : word = w
    · subst hw
      rw [h] at h1
      rcases hep with he | he <;> simp [fuzzyReplaceOk, he] at h1
    · rw [mapGet_mapSet_of_ne _ _ _ _ hw]; exact h
  · exact h

theorem findPrefixMatches_preserves (query : String) (index : FuzzyIndex) (m : Matches)
    (language : String) (w : String) (sm : SearchMatch) (h : mapGet m w = some sm) :
    mapGet (findPrefixMatches query index m language) w = some sm := by
  unfold findPrefixMatches
  refine foldl_preserve (fun acc => mapGet acc w = some sm) _ _ _ ?_ h
  intro acc p hp
  unfold prefixStep
  split_ifs with hg
  · exact foldl_preserve (fun acc2 => mapGet acc2 w = some sm) _ _ _
      (fun acc2 word h2 => prefixAddWord_preserves _ _ _ _ _ _ _ _ h2) hp
  · exact hp

theorem findPhoneticMatches_preserves (query : String) (processor : LanguageProcessor)
    (index : FuzzyIndex) (m : Matches) (w : String) (sm : SearchMatch)
    (h : mapGet m w = some sm) :
    mapGet (findPhoneticMatches query processor index m) w = some sm := by
  unfold findPhoneticMatches
  dsimp only
  split_ifs <;> try exact h
  split
  · exact foldl_preserve (fun acc => mapGet acc w = some sm) _ _ _
      (fun acc word h2 => phoneticAddWord_preserves _ _ _ _ _ _ _ h2) h
  · exact h

theorem findSynonymMatches_preserves (query : String) (index : FuzzyIndex) (m : Matches)
    (w : String) (sm : SearchMatch) (h : mapGet m w = some sm) :
    mapGet (findSynonymMatches query index m) w = some sm := by
  unfold findSynonymMatches
  split
  · exact foldl_preserve (fun acc => mapGet acc w = some sm) _ _ _
      (fun acc word h2 => synonymAddWord_preserves _ _ _ _ _ h2) h
  · exact h

theorem findNgramMatches_preserves (gen : String → Nat → List String) (query : String)
    (index : FuzzyIndex) (m : Matches) (language : String) (n : Nat) (w : String)
    (sm : SearchMatch) (h : mapGet m w = some sm) :
    mapGet (findNgramMatches gen query index m language n) w = some sm := by
  unfold findNgramMatches
  split_ifs with h1
  · exact h
  · exact foldl_preserve (fun acc => mapGet acc w = some sm) _ _ _
      (fun acc word h2 => ngramAddWord_preserves _ _ _ _ _ _ h2) h

theorem findSubstringMatches_preserves_ep (query : String) (index : FuzzyIndex)
    (m : Matches) (language : String) (w : String) (sm : SearchMatch)
    (h : mapGet m w = some sm)
    (hep : sm.matchType = "exact" ∨ sm.matchType = "prefix") :
    mapGet (findSubstringMatches query index m language) w = some sm := by
  unfold findSubstringMatches
  dsimp only
  split_ifs with h1
  · exact h
  · refine foldl_preserve (fun acc => mapGet acc w = some sm) _ _ _ ?_ h
    intro acc p hp
    unfold substringStep
    split_ifs with hg
    · exact foldl_preserve (fun acc2 => mapGet acc2 w = some sm) _ _ _
        (fun acc2 word h2 => substringAddWord_preserves_ep _ _ _ _ _ _ h2 hep) hp
    · exact hp

theorem fuzzyStep_preserves_ep (levFn damFn : String → String → Int → Int)
    (query : String) (uT : Bool) (mD : Int) (language : String) (acc : Matches)
    (p : String × List String) (w : String) (sm : SearchMatch)
    (h : mapGet acc w = some sm)
    (hep : sm.matchType = "exact" ∨ sm.matchType = "prefix") :
    mapGet (fuzzyStep levFn damFn query uT mD language acc p) w = some sm := by
  unfold fuzzyStep
  dsimp only
  split_ifs <;>
    first
      | exact h
      | exact foldl_preserve (fun acc2 => mapGet acc2 w = some sm) _ _ _
          (fun acc2 word h3 => fuzzyAddWord_preserves_ep _ _ _ _ _ _ _ h3 hep) h

theorem findFuzzyMatches_preserves_ep (levFn damFn : String → String → Int → Int)
    (query : String) (index : FuzzyIndex) (m : Matches) (processor : LanguageProcessor)
    (config : FuzzyConfig) (w : String) (sm : SearchMatch)
    (h : mapGet m w = some sm)
    (hep : sm.matchType = "exact" ∨ sm.matchType = "prefix") :
    mapGet (findFuzzyMatches levFn damFn query index m processor config) w = some sm := by
  unfold findFuzzyMatches
  exact foldl_preserve (fun acc => mapGet acc w = some sm) _ _ _
    (fun acc p hp => fuzzyStep_preserves_ep _ _ _ _ _ _ _ _ _ _ hp hep) h

/-- A fuzzy step touches an entry carrying a recorded distance only to
install the step's own fuzzy match, and only when the recorded distance
is 0 (falsy in JS) or strictly larger than the new distance. -/
theorem fuzzyAddWord_inv (variant : String) (distance : Int) (language : String)
    (w : String) (sm : SearchMatch) (d : Int) (hsm : sm.editDistance = some d)
    (acc2 : Matches) (word : String)
    (hP : mapGet acc2 w = some sm ∨
      ((d = 0 ∨ distance < d) ∧ mapGet acc2 w = some (fuzzySM w variant distance language))) :
    mapGet (fuzzyAddWord variant distance language acc2 word) w = some sm ∨
      ((d = 0 ∨ distance < d) ∧
        mapGet (fuzzyAddWord variant distance language acc2 word) w =
          some (fuzzySM w variant distance language)) := by
  unfold fuzzyAddWord
  split_ifs with h1
  · by_cases hw : word = w
    · subst hw
      rcases hP with hget | ⟨hside, _⟩
      · right
        rw [hget] at h1
        simp only [fuzzyReplaceOk, edOrInfGt, hsm, Bool.and_eq_true, Bool.or_eq_true,
          beq_iff_eq, decide_eq_true_eq] at h1
        exact ⟨h1.2, mapGet_mapSet_self _ _ _⟩
      · exact Or.inr ⟨hside, mapGet_mapSet_self _ _ _⟩
    · rcases hP with hget | ⟨hside, hget⟩
      · exact Or.inl (by rw [mapGet_mapSet_of_ne _ _ _ _ hw]; exact hget)
      · exact Or.inr ⟨hside, by rw [mapGet_mapSet_of_ne _ _ _ _ hw]; exact hget⟩
  · exact hP

/-- Folding one accepted variant's word list leaves the entry alone or
installs that variant's fuzzy match under the falsy-zero guard. -/
theorem fuzzyFold_only_upgrades (variant : String) (distance : Int) (language : String)
    (ws : List String) (acc : Matches) (w : String) (sm : SearchMatch) (d : Int)
    (h : mapGet acc w = some sm) (hsm : sm.editDistance = some d) :
    mapGet (ws.foldl (fuzzyAddWord variant distance language) acc) w = some sm ∨
      ((d = 0 ∨ distance < d) ∧
        mapGet (ws.foldl (fuzzyAddWord variant distance language) acc) w =
          some (fuzzySM w variant distance language)) :=
  foldl_preserve
    (fun acc2 => mapGet acc2 w = some sm ∨
      ((d = 0 ∨ distance < d) ∧
        mapGet acc2 w = some (fuzzySM w variant distance language)))
    (fuzzyAddWord variant distance language) ws acc
    (fun acc2 word hP => fuzzyAddWord_inv variant distance language w sm d hsm acc2 word hP)
    (Or.inl h)

/-- One fuzzy variant step leaves an entry with recorded distance d alone,
or replaces it by the step's fuzzy match with new distance dist such that
d = 0 or dist < d. -/
theorem fuzzyStep_only_upgrades (levFn damFn : String → String → Int → Int)
    (query : String) (uT : Bool) (mD : Int) (language : String) (acc : Matches)
    (p : String × List String) (w : String) (sm : SearchMatch) (d : Int)
    (h : mapGet acc w = some sm) (hsm : sm.editDistance = some d) :
    mapGet (fuzzyStep levFn damFn query uT mD language acc p) w = some sm ∨
      ∃ dist, mapGet (fuzzyStep levFn damFn query uT mD language acc p) w =
          some (fuzzySM w p.1 dist language) ∧ (d = 0 ∨ dist < d) := by
  unfold fuzzyStep
  dsimp only
  split_ifs <;>
    first
      | exact Or.inl h
      | exact (fuzzyFold_only_upgrades _ _ _ _ _ _ _ _ h hsm).elim Or.inl
          (fun hp => Or.inr ⟨_, hp.2, hp.1⟩)

/-! C4: strategy-merge priority. -/

/-- A match map holding one fuzzy entry of edit distance 1 for abcd. -/
def m4 : Matches := [("abcd", fuzzySM "abcd" "abxd" 1 "english")]

/-- An index whose variant map sends abcd to the base word abcd. -/
def idx4 : FuzzyIndex :=
  { base := ["abcd"], variantToBase := [("abcd", ["abcd"])], phoneticToBase := [],
    ngramIndex := [], synonymMap := [], config := cfgA }

/-- A match map holding one fuzzy entry of edit distance 0 for w. -/
def m4b : Matches := [("w", fuzzySM "w" "ab" 0 "english")]

/-- An index whose variant map sends xy to the base word w. -/
def idx4b : FuzzyIndex :=
  { base := ["w"], variantToBase := [("xy", ["w"])], phoneticToBase := [],
    ngramIndex := [], synonymMap := [], config := cfgA }

/-- Counterexample to C4 as stated: (a) findSubstringMatches replaces an
existing fuzzy entry with a substring match, so a fuzzy match is not
replaced only by smaller-distance fuzzy matches; (b) findFuzzyMatches
replaces a fuzzy entry of recorded distance 0 with one of distance 2,
because the JS or-else fallback treats a recorded 0 as Infinity. -/
theorem merge_priority_cex :
    (fuzzySM "abcd" "abxd" 1 "english").matchType = "fuzzy"
    ∧ mapGet m4 "abcd" = some (fuzzySM "abcd" "abxd" 1 "english")
    ∧ mapGet (findSubstringMatches "bc" idx4 m4 "english") "abcd" =
        some { word := "abcd", normalized := "abcd", matchType := "substring",
               language := "english" }
    ∧ mapGet m4b "w" = some (fuzzySM "w" "ab" 0 "english")
    ∧ mapGet (findFuzzyMatches calculateLevenshteinDistance calculateLevenshteinDistance
        "ab" idx4b m4b enProc cfgA) "w" = some (fuzzySM "w" "xy" 2 "english") := by
  refine ⟨rfl, rfl, ?_, rfl, ?_⟩ <;> decide

/-- C4 (amended): exact and prefix entries survive every later matcher
(findPrefixMatches, findSubstringMatches, findPhoneticMatches,
findSynonymMatches, findNgramMatches, findFuzzyMatches) unchanged;
findPrefixMatches, findPhoneticMatches, findSynonymMatches and
findNgramMatches never replace any existing entry; and a fuzzy variant
step replaces an entry of recorded distance d only with that variant's
fuzzy match of distance dist where d = 0 (falsy, read as Infinity by the
JS or-else fallback) or dist < d. findSubstringMatches may still replace
a fuzzy entry, per the counterexample. -/
theorem merge_priority_amended (levFn damFn : String → String → Int → Int)
    (gen : String → Nat → List String) (query : String) (index : FuzzyIndex)
    (m : Matches) (language : String) (processor : LanguageProcessor)
    (config : FuzzyConfig) (n : Nat) (w : String) (sm : SearchMatch)
    (h : mapGet m w = some sm) :
    ((sm.matchType = "exact" ∨ sm.matchType = "prefix") →
        mapGet (findPrefixMatches query index m language) w = some sm
      ∧ mapGet (findSubstringMatches query index m language) w = some sm
      ∧ mapGet (findPhoneticMatches query processor index m) w = some sm
      ∧ mapGet (findSynonymMatches query index m) w = some sm
      ∧ mapGet (findNgramMatches gen query index m language n) w = some sm
      ∧ mapGet (findFuzzyMatches levFn damFn query index m processor config) w = some sm)
    ∧ (mapGet (findPrefixMatches query index m language) w = some sm
      ∧ mapGet (findPhoneticMatches query processor index m) w = some sm
      ∧ mapGet (findSynonymMatches query index m) w = some sm
      ∧ mapGet (findNgramMatches gen query index m language n) w = some sm)
    ∧ (∀ d : Int, sm.matchType = "fuzzy" → sm.editDistance = some d →
        ∀ (uT : Bool) (mD : Int) (p : String × List String),
          mapGet (fuzzyStep levFn damFn query uT mD language m p) w = some sm ∨
            ∃ dist, mapGet (fuzzyStep levFn damFn query uT mD language m p) w =
                some (fuzzySM w p.1 dist language) ∧ (d = 0 ∨ dist < d)) := by
  refine ⟨?_, ?_, ?_⟩
  · intro hep
    exact ⟨findPrefixMatches_preserves _ _ _ _ _ _ h,
      findSubstringMatches_preserves_ep _ _ _ _ _ _ h hep,
      findPhoneticMatches_preserves _ _ _ _ _ _ h,
      findSynonymMatches_preserves _ _ _ _ _ h,
      findNgramMatches_preserves _ _ _ _ _ _ _ _ h,
      findFuzzyMatches_preserves_ep _ _ _ _ _ _ _ _ _ h hep⟩
  · exact ⟨findPrefixMatches_preserves _ _ _ _ _ _ h,
      findPhoneticMatches_preserves _ _ _ _ _ _ h,
      findSynonymMatches_preserves _ _ _ _ _ h,
      findNgramMatches_preserves _ _ _ _ _ _ _ _ h⟩
  · intro d _ hed uT mD p
    exact fuzzyStep_only_upgrades levFn damFn query uT mD language m p w sm d h hed

/-- Witness for C4 (amended): an exact entry survives the substring and
fuzzy strategies on a concrete index, and a concrete fuzzy step can only
leave a distance-1 entry or upgrade it. -/
theorem merge_priority_amended_witness :
    (mapGet (findSubstringMatches "ppl" idxA [("apple", exactSM "apple" "apple" "english")]
        "english") "apple" = some (exactSM "apple" "apple" "english"))
    ∧ (mapGet (findFuzzyMatches calculateLevenshteinDistance calculateLevenshteinDistance
        "appl" idxA [("apple", exactSM "apple" "apple" "english")] enProc cfgA) "apple" =
        some (exactSM "apple" "apple" "english"))
    ∧ (mapGet (fuzzyStep calculateLevenshteinDistance calculateLevenshteinDistance
          "abcd" false 2 "english" m4 ("abxy", ["abcd"])) "abcd" =
            some (fuzzySM "abcd" "abxd" 1 "english")
        ∨ ∃ dist, mapGet (fuzzyStep calculateLevenshteinDistance calculateLevenshteinDistance
            "abcd" false 2 "english" m4 ("abxy", ["abcd"])) "abcd" =
              some (fuzzySM "abcd" "abxy" dist "english") ∧ ((1 : Int) = 0 ∨ dist < 1)) := by
  refine ⟨?_, ?_, ?_⟩
  · exact ((merge_priority_amended calculateLevenshteinDistance calculateLevenshteinDistance
      generateNgrams "ppl" idxA [("apple", exactSM "apple" "apple" "english")] "english"
      enProc cfgA 3 "apple" (exactSM "apple" "apple" "english") rfl).1 (Or.inl rfl)).2.1
  · exact ((merge_priority_amended calculateLevenshteinDistance calculateLevenshteinDistance
      generateNgrams "appl" idxA [("apple", exactSM "apple" "apple" "english")] "english"
      enProc cfgA 3 "apple" (exactSM "apple" "apple" "english") rfl).1 (Or.inl rfl)).2.2.2.2.2
  · exact (merge_priority_amended calculateLevenshteinDistance calculateLevenshteinDistance
      generateNgrams "abcd" idx4 m4 "english" enProc cfgA 3 "abcd"
      (fuzzySM "abcd" "abxd" 1 "english") rfl).2.2 1 rfl rfl false 2 ("abxy", ["abcd"])

/-! C6: characterization of the substring strategy. -/

theorem strToLower_length (s : String) : (strToLower s).length = s.length := by
  have h : (strToLower s).length = (s.toList.map Char.toLower).length := rfl
  rw [h, List.length_map]
  rfl

theorem substringAddWord_get_ne (variant language : String) (acc : Matches)
    (word w : String) (hw : word ≠ w) :
    mapGet (substringAddWord variant language acc word) w = mapGet acc w := by
  unfold substringAddWord
  split_ifs with h1
  · exact mapGet_mapSet_of_ne _ _ _ _ hw
  · rfl

theorem substrWordsFold_get_not_mem (variant language : String) (ws : List String)
    (acc : Matches) (w : String) (hw : w ∉ ws) :
    mapGet (ws.foldl (substringAddWord variant language) acc) w = mapGet acc w := by
  induction ws generalizing acc with
  | nil => rfl
  | cons a rest ih =>
    rw [List.foldl_cons, ih _ (fun hm => hw (List.mem_cons_of_mem a hm)),
      substringAddWord_get_ne _ _ _ _ _
        (fun he => hw (by rw [← he]; exact List.mem_cons_self a rest))]

theorem substrWordsFold_sets (variant language : String) (ws : List String)
    (acc : Matches) (w : String) (hw : w ∈ ws)
    (hne : notExactOrPrefix (mapGet acc w) = true) :
    mapGet (ws.foldl (substringAddWord variant language) acc) w =
      some (subSM w variant language) := by
  induction ws generalizing acc with
  | nil => cases hw
  | cons a rest ih =>
    rw [List.foldl_cons]
    by_cases ha : a = w
    · subst ha
      have hset : mapGet (substringAddWord variant language acc a) a =
          some (subSM a variant language) := by
        unfold substringAddWord
        rw [if_pos hne]
        exact mapGet_mapSet_self _ _ _
      by_cases hmem : a ∈ rest
      · exact ih _ hmem (by rw [hset]; rfl)
      · rw [substrWordsFold_get_not_mem _ _ _ _ _ hmem, hset]
    · have hstep : mapGet (substringAddWord variant language acc a) w = mapGet acc w :=
        substringAddWord_get_ne _ _ _ _ _ ha
      have hmem : w ∈ rest := by
        cases List.mem_cons.mp hw with
        | inl h => exact absurd h.symm ha
        | inr h => exact h
      exact ih _ hmem (by rw [hstep]; exact hne)

theorem substringStep_get_no (queryLower language : String) (acc : Matches)
    (p : String × List String) (w : String)
    (h : ¬(w ∈ p.2 ∧ substrCond p.1 queryLower = true)) :
    mapGet (substringStep queryLower language acc p) w = mapGet acc w := by
  unfold substringStep
  split_ifs with hc
  · exact substrWordsFold_get_not_mem _ _ _ _ _ (fun hm => h ⟨hm, hc⟩)
  · rfl

theorem substrFold_get_none (queryLower language : String) (l : List (String × List String))
    (m : Matches) (w : String)
    (h : ∀ p ∈ l, ¬(w ∈ p.2 ∧ substrCond p.1 queryLower = true)) :
    mapGet (l.foldl (substringStep queryLower language) m) w = mapGet m w := by
  induction l generalizing m with
  | nil => rfl
  | cons p rest ih =>
    rw [List.foldl_cons, ih _ (fun q hq => h q (List.mem_cons_of_mem p hq)),
      substringStep_get_no _ _ _ _ _ (h p (List.mem_cons_self p rest))]

theorem substrFold_adds (queryLower language : String) (l : List (String × List String))
    (m : Matches) (w : String)
    (hne : notExactOrPrefix (mapGet m w) = true)
    (hex : ∃ p ∈ l, w ∈ p.2 ∧ substrCond p.1 queryLower = true) :
    ∃ v ws, (v, ws) ∈ l ∧ w ∈ ws ∧ substrCond v queryLower = true ∧
      mapGet (l.foldl (substringStep queryLower language) m) w =
        some (subSM w v language) := by
  induction l generalizing m with
  | nil => obtain ⟨p, hp, _⟩ := hex; cases hp
  | cons p rest ih =>
    rw [List.foldl_cons]
    by_cases hp : w ∈ p.2 ∧ substrCond p.1 queryLower = true
    · have hset : mapGet (substringStep queryLower language m p) w =
          some (subSM w p.1 language) := by
        unfold substringStep
        rw [if_pos hp.2]
        exact substrWordsFold_sets _ _ _ _ _ hp.1 hne
      by_cases hex2 : ∃ q ∈ rest, w ∈ q.2 ∧ substrCond q.1 queryLower = true
      · obtain ⟨v, ws, hmem, hw, hc, hget⟩ :=
          ih (substringStep queryLower language m p) (by rw [hset]; rfl) hex2
        exact ⟨v, ws, List.mem_cons_of_mem p hmem, hw, hc, hget⟩
      · refine ⟨p.1, p.2, by simp, hp.1, hp.2, ?_⟩
        rw [substrFold_get_none _ _ _ _ _ (fun q hq hqc => hex2 ⟨q, hq, hqc⟩), hset]
    · have hstep : mapGet (substringStep queryLower language m p) w = mapGet m w :=
        substringStep_get_no _ _ _ _ _ hp
      have hex2 : ∃ q ∈ rest, w ∈ q.2 ∧ substrCond q.1 queryLower = true := by
        obtain ⟨q, hq, hqc⟩ := hex
        cases List.mem_cons.mp hq with
        | inl he => exact absurd (he ▸ hqc) hp
        | inr he => exact ⟨q, he, hqc⟩
      obtain ⟨v, ws, hmem, hw, hc, hget⟩ :=
        ih (substringStep queryLower language m p) (by rw [hstep]; exact hne) hex2
      exact ⟨v, ws, List.mem_cons_of_mem p hmem, hw, hc, hget⟩

/-- C6: for a query whose lowercasing is 2 characters or longer,
findSubstringMatches adds a substring match for exactly the base words
reachable from a variant that contains the lowercased query neither as a
prefix nor as the whole variant, never overwriting exact or prefix
entries; queries shorter than 2 characters add nothing. -/
theorem substring_characterization (query : String) (index : FuzzyIndex) (m : Matches)
    (language : String) :
    (query.length < 2 → findSubstringMatches query index m language = m)
    ∧ (2 ≤ query.length →
      ∀ w : String,
        ((∃ sm, mapGet m w = some sm ∧ (sm.matchType = "exact" ∨ sm.matchType = "prefix")) →
          mapGet (findSubstringMatches query index m language) w = mapGet m w)
        ∧ ((¬∃ p ∈ index.variantToBase, w ∈ p.2 ∧ substrCond p.1 (strToLower query) = true) →
          mapGet (findSubstringMatches query index m language) w = mapGet m w)
        ∧ (notExactOrPrefix (mapGet m w) = true →
          (∃ p ∈ index.variantToBase, w ∈ p.2 ∧ substrCond p.1 (strToLower query) = true) →
          ∃ v ws, (v, ws) ∈ index.variantToBase ∧ w ∈ ws ∧
            substrCond v (strToLower query) = true ∧
            mapGet (findSubstringMatches query index m language) w =
              some (subSM w v language))) := by
  have hlen : (strToLower query).length = query.length := strToLower_length query
  constructor
  · intro hshort
    unfold findSubstringMatches
    dsimp only
    rw [if_pos (by omega)]
  · intro hlong w
    have hopen : findSubstringMatches query index m language =
        index.variantToBase.foldl (substringStep (strToLower query) language) m := by
      unfold findSubstringMatches
      dsimp only
      rw [if_neg (by omega)]
    refine ⟨?_, ?_, ?_⟩
    · rintro ⟨sm, hsm, hep⟩
      rw [findSubstringMatches_preserves_ep query index m language w sm hsm hep, hsm]
    · intro hno
      rw [hopen]
      exact substrFold_get_none _ _ _ _ _ (fun p hp hc => hno ⟨p, hp, hc⟩)
    · intro hne hex
      rw [hopen]
      exact substrFold_adds _ _ _ _ _ hne hex

/-- Witness for C6 on the concrete apple index: a 1-character query changes
nothing; for the query ppl the base word apple is added as a substring
match; for the query app (a prefix of the variant) nothing is added. -/
theorem substring_characterization_witness :
    findSubstringMatches "p" idxA [] "english" = []
    ∧ (∃ v ws, (v, ws) ∈ idxA.variantToBase ∧ "apple" ∈ ws ∧
        substrCond v (strToLower "ppl") = true ∧
        mapGet (findSubstringMatches "ppl" idxA [] "english") "apple" =
          some (subSM "apple" v "english"))
    ∧ mapGet (findSubstringMatches "app" idxA [] "english") "apple" = mapGet ([] : Matches) "apple" := by
  refine ⟨?_, ?_, ?_⟩
  · exact (substring_characterization "p" idxA [] "english").1 (by decide)
  · exact ((substring_characterization "ppl" idxA [] "english").2 (by decide) "apple").2.2
      rfl ⟨("apple", ["apple"]), by decide⟩
  · exact ((substring_characterization "app" idxA [] "english").2 (by decide) "apple").2.1
      (by decide)

/-! C7: characterization of the n-gram strategy. -/

theorem candAdd_mem (cw : List String) (x w : String) :
    w ∈ candAdd cw x ↔ w ∈ cw ∨ w = x := by
  unfold candAdd
  split_ifs with hc
  · constructor
    · exact Or.inl
    · rintro (h | h)
      · exact h
      · subst h; exact List.elem_iff.mp hc
  · simp [List.mem_append]

theorem candFold_mem (ws : List String) (cw : List String) (w : String) :
    w ∈ ws.foldl candAdd cw ↔ w ∈ cw ∨ w ∈ ws := by
  induction ws generalizing cw with
  | nil => simp
  | cons a rest ih =>
    rw [List.foldl_cons, ih, candAdd_mem]
    constructor
    · rintro ((h | h) | h)
      · exact Or.inl h
      · exact Or.inr (h ▸ List.mem_cons_self a rest)
      · exact Or.inr (List.mem_cons_of_mem a h)
    · rintro (h | h)
      · exact Or.inl (Or.inl h)
      · cases List.mem_cons.mp h with
        | inl he => exact Or.inl (Or.inr he)
        | inr hm => exact Or.inr hm

theorem ngramCandFold_mem (index : FuzzyIndex) (gs : List String) (cw : List String)
    (w : String) :
    w ∈ gs.foldl (ngramCandStep index) cw ↔
      w ∈ cw ∨ ∃ g ∈ gs, ∃ ws, smLookup index.ngramIndex g = some ws ∧ w ∈ ws := by
  induction gs generalizing cw with
  | nil => simp
  | cons g rest ih =>
    rw [List.foldl_cons, ih]
    have hstep : w ∈ ngramCandStep index cw g ↔
        w ∈ cw ∨ ∃ ws, smLookup index.ngramIndex g = some ws ∧ w ∈ ws := by
      unfold ngramCandStep
      cases hg : smLookup index.ngramIndex g with
      | some ws => rw [candFold_mem]; simp [hg]
      | none => simp
    rw [hstep]
    constructor
    · rintro ((h | ⟨ws, hg, hw⟩) | ⟨g2, hg2, hws⟩)
      · exact Or.inl h
      · exact Or.inr ⟨g, List.mem_cons_self g rest, ws, hg, hw⟩
      · exact Or.inr ⟨g2, List.mem_cons_of_mem g hg2, hws⟩
    · rintro (h | ⟨g2, hg2, hws⟩)
      · exact Or.inl (Or.inl h)
      · cases List.mem_cons.mp hg2 with
        | inl he => exact Or.inl (Or.inr (he ▸ hws))
        | inr hm => exact Or.inr ⟨g2, hm, hws⟩

theorem ngramAddWord_get_ne (query language : String) (acc : Matches) (word w : String)
    (hw : word ≠ w) :
    mapGet (ngramAddWord query language acc word) w = mapGet acc w := by
  unfold ngramAddWord
  split_ifs with h1
  · exact mapGet_mapSet_of_ne _ _ _ _ hw
  · rfl

theorem ngramAddFold_get_not_mem (query language : String) (cands : List String)
    (m : Matches) (w : String) (hw : w ∉ cands) :
    mapGet (cands.foldl (ngramAddWord query language) m) w = mapGet m w := by
  induction cands generalizing m with
  | nil => rfl
  | cons a rest ih =>
    rw [List.foldl_cons, ih _ (fun hm => hw (List.mem_cons_of_mem a hm)),
      ngramAddWord_get_ne _ _ _ _ _
        (fun he => hw (by rw [← he]; exact List.mem_cons_self a rest))]

theorem ngramAddFold_sets (query language : String) (cands : List String)
    (m : Matches) (w : String) (hw : w ∈ cands) (hnone : mapGet m w = none) :
    mapGet (cands.foldl (ngramAddWord query language) m) w =
      some (ngramSM w query language) := by
  induction cands generalizing m with
  | nil => cases hw
  | cons a rest ih =>
    rw [List.foldl_cons]
    by_cases ha : a = w
    · subst ha
      have hset : mapGet (ngramAddWord query language m a) a =
          some (ngramSM a query language) := by
        unfold ngramAddWord
        rw [if_pos (by simp [mapHas, hnone])]
        exact mapGet_mapSet_self _ _ _
      exact foldl_preserve (fun acc => mapGet acc a = some (ngramSM a query language)) _ _ _
        (fun acc word h2 => ngramAddWord_preserves _ _ _ _ _ _ h2) hset
    · have hstep : mapGet (ngramAddWord query language m a) w = mapGet m w :=
        ngramAddWord_get_ne _ _ _ _ _ ha
      have hmem : w ∈ rest := by
        cases List.mem_cons.mp hw with
        | inl he => exact absurd he.symm ha
        | inr hm => exact hm
      exact ih _ hmem (by rw [hstep]; exact hnone)

/-- C7: a query shorter than the n-gram size adds nothing; otherwise the
words added are exactly (a) the base words reachable from some generated
n-gram of the query through the n-gram index that (b) are not already in
the match map, each stored as an ngram match; existing entries are
untouched. -/
theorem ngram_characterization (gen : String → Nat → List String) (query : String)
    (index : FuzzyIndex) (m : Matches) (language : String) (n : Nat) :
    (query.length < n → findNgramMatches gen query index m language n = m)
    ∧ (n ≤ query.length →
      ∀ w : String,
        (∀ sm, mapGet m w = some sm →
          mapGet (findNgramMatches gen query index m language n) w = some sm)
        ∧ (mapGet m w = none →
          ((∃ g ∈ gen query n, ∃ ws, smLookup index.ngramIndex g = some ws ∧ w ∈ ws) →
            mapGet (findNgramMatches gen query index m language n) w =
              some (ngramSM w query language))
          ∧ ((¬∃ g ∈ gen query n, ∃ ws, smLookup index.ngramIndex g = some ws ∧ w ∈ ws) →
            mapGet (findNgramMatches gen query index m language n) w = none))) := by
  constructor
  · intro hshort
    unfold findNgramMatches
    rw [if_pos hshort]
  · intro hlong w
    have hopen : findNgramMatches gen query index m language n =
        ((gen query n).foldl (ngramCandStep index) []).foldl
          (ngramAddWord query language) m := by
      unfold findNgramMatches
      rw [if_neg (by omega)]
    refine ⟨?_, ?_⟩
    · intro sm hsm
      exact findNgramMatches_preserves gen query index m language n w sm hsm
    · intro hnone
      constructor
      · intro hex
        rw [hopen]
        exact ngramAddFold_sets _ _ _ _ _
          ((ngramCandFold_mem index (gen query n) [] w).mpr
            (Or.inr hex)) hnone
      · intro hno
        rw [hopen, ngramAddFold_get_not_mem _ _ _ _ _
          (fun hm => ?_), hnone]
        cases (ngramCandFold_mem index (gen query n) [] w).mp hm with
        | inl h => cases h
        | inr h => exact hno h

/-- Witness for C7 on the apple index with the modelled n-gram generator:
a 2-character query adds nothing, and the query applet reaches apple
through the n-gram app while the already-present entry survives. -/
theorem ngram_characterization_witness :
    findNgramMatches generateNgrams "ap" idxA [] "english" 3 = []
    ∧ mapGet (findNgramMatches generateNgrams "applet" idxA [] "english" 3) "apple" =
        some (ngramSM "apple" "applet" "english")
    ∧ mapGet (findNgramMatches generateNgrams "applet" idxA
        [("apple", exactSM "apple" "applet" "english")] "english" 3) "apple" =
        some (exactSM "apple" "applet" "english") := by
  refine ⟨?_, ?_, ?_⟩
  · exact (ngram_characterization generateNgrams "ap" idxA [] "english" 3).1 (by decide)
  · exact (((ngram_characterization generateNgrams "applet" idxA [] "english" 3).2
      (by decide) "apple").2 rfl).1 ⟨"app", by decide⟩
  · exact ((ngram_characterization generateNgrams "applet" idxA
      [("apple", exactSM "apple" "applet" "english")] "english" 3).2
      (by decide) "apple").1 _ rfl

/-! C5: the fuzzy length pre-filter. -/

theorem fuzzyStep_congr (levFn damFn levFn2 damFn2 : String → String → Int → Int)
    (query : String) (uT : Bool) (mD : Int) (language : String) (acc : Matches)
    (p : String × List String)
    (h : (((p.1.length : Int) - (query.length : Int)).natAbs : Int) ≤
        fuzzyMaxLengthDiff query mD →
      levFn query p.1 mD = levFn2 query p.1 mD ∧ damFn query p.1 mD = damFn2 query p.1 mD) :
    fuzzyStep levFn damFn query uT mD language acc p =
      fuzzyStep levFn2 damFn2 query uT mD language acc p := by
  unfold fuzzyStep
  dsimp only
  by_cases h1 : (((p.1.length : Int) - (query.length : Int)).natAbs : Int) ≤
      fuzzyMaxLengthDiff query mD
  · obtain ⟨hl, hd⟩ := h h1
    rw [if_pos h1, if_pos h1, hl, hd]
  · rw [if_neg h1, if_neg h1]

theorem fuzzyFold_provenance (variant : String) (distance : Int) (language : String)
    (ws : List String) (acc : Matches) (w : String) (entry : SearchMatch)
    (h : mapGet (ws.foldl (fuzzyAddWord variant distance language) acc) w = some entry) :
    mapGet acc w = some entry ∨ (w ∈ ws ∧ entry = fuzzySM w variant distance language) := by
  induction ws generalizing acc with
  | nil => exact Or.inl h
  | cons a rest ih =>
    rw [List.foldl_cons] at h
    rcases ih _ h with hacc | ⟨hm, he⟩
    · unfold fuzzyAddWord at hacc
      split_ifs at hacc with hg
      · by_cases ha : a = w
        · subst ha
          rw [mapGet_mapSet_self] at hacc
          exact Or.inr ⟨List.mem_cons_self a rest, (Option.some_inj.mp hacc).symm⟩
        · rw [mapGet_mapSet_of_ne _ _ _ _ ha] at hacc
          exact Or.inl hacc
      · exact Or.inl hacc
    · exact Or.inr ⟨List.mem_cons_of_mem a hm, he⟩

theorem fuzzyStep_provenance (levFn damFn : String → String → Int → Int)
    (query : String) (uT : Bool) (mD : Int) (language : String) (acc : Matches)
    (p : String × List String) (w : String) (entry : SearchMatch)
    (h : mapGet (fuzzyStep levFn damFn query uT mD language acc p) w = some entry) :
    mapGet acc w = some entry ∨
      (w ∈ p.2 ∧
        (((p.1.length : Int) - (query.length : Int)).natAbs : Int) ≤
          fuzzyMaxLengthDiff query mD ∧
        ∃ dist, dist = (if uT then damFn query p.1 mD else levFn query p.1 mD) ∧
          dist ≤ (if query.length ≤ 3 then 2 else mD) ∧
          entry = fuzzySM w p.1 dist language) := by
  unfold fuzzyStep at h
  dsimp only at h
  by_cases h1 : (((p.1.length : Int) - (query.length : Int)).natAbs : Int) ≤
      fuzzyMaxLengthDiff query mD
  · rw [if_pos h1] at h
    by_cases h2 : (if uT then damFn query p.1 mD else levFn query p.1 mD) ≤
        (if query.length ≤ 3 then 2 else mD)
    · rw [if_pos h2] at h
      rcases fuzzyFold_provenance _ _ _ _ _ _ _ h with hacc | ⟨hm, he⟩
      · exact Or.inl hacc
      · exact Or.inr ⟨hm, h1, _, rfl, h2, he⟩
    · rw [if_neg h2] at h
      exact Or.inl h
  · rw [if_neg h1] at h
    exact Or.inl h

/-- C5: findFuzzyMatches consults the distance functions only on variants
whose length difference from the query fits the adaptive bound (5 for
queries of length at most 3, 4 for length 4, else the effective max edit
distance), so the result is unchanged under any modification of the
distance functions outside that region; and every entry it adds comes
from an in-bound variant whose computed distance lies within the adaptive
distance threshold. -/
theorem fuzzy_length_prefilter (levFn damFn levFn2 damFn2 : String → String → Int → Int)
    (query : String) (index : FuzzyIndex) (m : Matches) (processor : LanguageProcessor)
    (config : FuzzyConfig) :
    ((∀ v : String,
        (((v.length : Int) - (query.length : Int)).natAbs : Int) ≤
          fuzzyMaxLengthDiff query (fuzzyEffectiveMaxDistance config query) →
        levFn query v (fuzzyEffectiveMaxDistance config query) =
            levFn2 query v (fuzzyEffectiveMaxDistance config query) ∧
          damFn query v (fuzzyEffectiveMaxDistance config query) =
            damFn2 query v (fuzzyEffectiveMaxDistance config query)) →
      findFuzzyMatches levFn damFn query index m processor config =
        findFuzzyMatches levFn2 damFn2 query index m processor config)
    ∧ (∀ (w : String) (entry : SearchMatch),
        mapGet (findFuzzyMatches levFn damFn query index m processor config) w = some entry →
        mapGet m w = some entry ∨
          ∃ v ws, (v, ws) ∈ index.variantToBase ∧ w ∈ ws ∧
            (((v.length : Int) - (query.length : Int)).natAbs : Int) ≤
              fuzzyMaxLengthDiff query (fuzzyEffectiveMaxDistance config query) ∧
            ∃ dist,
              dist = (if (index.config.features.getD []).contains "transpositions"
                then damFn query v (fuzzyEffectiveMaxDistance config query)
                else levFn query v (fuzzyEffectiveMaxDistance config query)) ∧
              dist ≤ (if query.length ≤ 3 then 2 else fuzzyEffectiveMaxDistance config query) ∧
              entry = fuzzySM w v dist processor.language) := by
  constructor
  · intro hagree
    unfold findFuzzyMatches
    exact foldl_congr_pointwise _ _ _ _
      (fun acc p _ => fuzzyStep_congr _ _ _ _ _ _ _ _ _ _ (fun hb => hagree p.1 hb))
  · intro w entry
    unfold findFuzzyMatches
    intro h
    refine foldl_preserve_mem
      (fun acc => mapGet acc w = some entry →
        mapGet m w = some entry ∨
          ∃ v ws, (v, ws) ∈ index.variantToBase ∧ w ∈ ws ∧
            (((v.length : Int) - (query.length : Int)).natAbs : Int) ≤
              fuzzyMaxLengthDiff query (fuzzyEffectiveMaxDistance config query) ∧
            ∃ dist,
              dist = (if (index.config.features.getD []).contains "transpositions"
                then damFn query v (fuzzyEffectiveMaxDistance config query)
                else levFn query v (fuzzyEffectiveMaxDistance config query)) ∧
              dist ≤ (if query.length ≤ 3 then 2 else fuzzyEffectiveMaxDistance config query) ∧
              entry = fuzzySM w v dist processor.language)
      _ _ _ ?_ (fun hm => Or.inl hm) h
    intro acc p hp hP hstep
    rcases fuzzyStep_provenance _ _ _ _ _ _ _ _ _ _ hstep with hacc | ⟨hm, hb, dist, hde, hdt, he⟩
    · exact hP hacc
    · exact Or.inr ⟨p.1, p.2, by simpa using hp, hm, hb, dist, hde, hdt, he⟩

/-- Witness for C5: on a concrete index the agreement implication yields
equality, and the single entry the fuzzy pass adds is traced back to the
in-bound variant xy at distance 2. -/
theorem fuzzy_length_prefilter_witness :
    (findFuzzyMatches calculateLevenshteinDistance calculateLevenshteinDistance
        "ab" idx4b [] enProc cfgA =
      findFuzzyMatches calculateLevenshteinDistance calculateLevenshteinDistance
        "ab" idx4b [] enProc cfgA)
    ∧ (mapGet ([] : Matches) "w" = some (fuzzySM "w" "xy" 2 "english") ∨
        ∃ v ws, (v, ws) ∈ idx4b.variantToBase ∧ "w" ∈ ws ∧
          ((((v.length : Int) - (("ab".length : Int))).natAbs : Int) ≤
            fuzzyMaxLengthDiff "ab" (fuzzyEffectiveMaxDistance cfgA "ab")) ∧
          ∃ dist,
            dist = (if (idx4b.config.features.getD []).contains "transpositions"
              then calculateLevenshteinDistance "ab" v (fuzzyEffectiveMaxDistance cfgA "ab")
              else calculateLevenshteinDistance "ab" v (fuzzyEffectiveMaxDistance cfgA "ab")) ∧
            dist ≤ (if "ab".length ≤ 3 then 2 else fuzzyEffectiveMaxDistance cfgA "ab") ∧
            fuzzySM "w" "xy" 2 "english" = fuzzySM "w" v dist enProc.language) := by
  refine ⟨?_, ?_⟩
  · exact (fuzzy_length_prefilter calculateLevenshteinDistance calculateLevenshteinDistance
      calculateLevenshteinDistance calculateLevenshteinDistance "ab" idx4b [] enProc cfgA).1
      (fun v _ => ⟨rfl, rfl⟩)
  · exact (fuzzy_length_prefilter calculateLevenshteinDistance calculateLevenshteinDistance
      calculateLevenshteinDistance calculateLevenshteinDistance "ab" idx4b [] enProc cfgA).2
      "w" (fuzzySM "w" "xy" 2 "english") (by decide)

/-! C10: the source fuzzy matcher against the compiled one in dist. -/

/-- A distance function respecting the length-difference lower bound: when
the length gap already exceeds the supplied bound, the returned value does
too (true of any Levenshtein-style distance with its sentinel). -/
def BoundRespecting (f : String → String → Int → Int) : Prop :=
  ∀ a b bound, bound < (((b.length : Int) - (a.length : Int)).natAbs : Int) →
    bound < f a b bound

/-- The two adaptive max distances agree for queries of length at most 9,
and also beyond when the configured max edit distance is at least 3. -/
theorem effMaxDistance_eq (config : FuzzyConfig) (query : String)
    (h : query.length ≤ 9 ∨ 3 ≤ config.maxEditDistance) :
    distFuzzyEffectiveMaxDistance config query = fuzzyEffectiveMaxDistance config query := by
  unfold fuzzyEffectiveMaxDistance distFuzzyEffectiveMaxDistance
  by_cases h3 : query.length ≤ 3
  · rw [if_pos h3, if_pos h3]
  · by_cases h4 : query.length ≤ 4
    · rw [if_neg h3, if_neg h3, if_pos h4, if_pos h4]
    · by_cases h10 : 10 ≤ query.length
      · have hm : 3 ≤ config.maxEditDistance := by
          rcases h with h9 | hm
          · omega
          · exact hm
        rw [if_neg h3, if_neg h3, if_pos h10, if_neg h4, if_neg h4, max_eq_left hm]
      · rw [if_neg h3, if_neg h3, if_neg h4, if_neg h4, if_neg h10]

/-- With bound-respecting distance functions and a common effective max
distance, the source and dist variant steps coincide: the wider dist
length window only ever admits variants whose distance then fails the
threshold. -/
theorem fuzzyStep_eq_distFuzzyStep (levFn damFn : String → String → Int → Int)
    (hlev : BoundRespecting levFn) (hdam : BoundRespecting damFn)
    (query : String) (uT : Bool) (mD : Int) (language : String) (acc : Matches)
    (p : String × List String) :
    fuzzyStep levFn damFn query uT mD language acc p =
      distFuzzyStep levFn damFn query uT mD language acc p := by
  unfold fuzzyStep distFuzzyStep
  dsimp only
  by_cases hb1 : (((p.1.length : Int) - (query.length : Int)).natAbs : Int) ≤
      fuzzyMaxLengthDiff query mD
  · have hb2 : (((p.1.length : Int) - (query.length : Int)).natAbs : Int) ≤
        distFuzzyMaxLengthDiff query mD := by
      unfold fuzzyMaxLengthDiff at hb1
      unfold distFuzzyMaxLengthDiff
      split_ifs at * <;> omega
    rw [if_pos hb1, if_pos hb2]
  · by_cases hb2 : (((p.1.length : Int) - (query.length : Int)).natAbs : Int) ≤
        distFuzzyMaxLengthDiff query mD
    · have h3 : ¬query.length ≤ 3 := by
        intro h3
        unfold fuzzyMaxLengthDiff at hb1
        unfold distFuzzyMaxLengthDiff at hb2
        rw [if_pos h3] at hb1
        rw [if_pos (by omega : query.length ≤ 4), if_pos h3] at hb2
        exact hb1 hb2
      have h4 : ¬query.length ≤ 4 := by
        intro h4
        unfold fuzzyMaxLengthDiff at hb1
        unfold distFuzzyMaxLengthDiff at hb2
        rw [if_neg h3, if_pos h4] at hb1
        rw [if_pos h4, if_neg h3] at hb2
        exact hb1 hb2
      have hL : mD < (((p.1.length : Int) - (query.length : Int)).natAbs : Int) := by
        unfold fuzzyMaxLengthDiff at hb1
        rw [if_neg h3, if_neg h4] at hb1
        omega
      have hdist : mD < (if uT then damFn query p.1 mD else levFn query p.1 mD) := by
        cases uT with
        | true => simpa using hdam query p.1 mD hL
        | false => simpa using hlev query p.1 mD hL
      rw [if_neg hb1, if_pos hb2, if_neg (by rw [if_neg h3]; omega :
        ¬(if uT then damFn query p.1 mD else levFn query p.1 mD) ≤
          (if query.length ≤ 3 then 2 else mD))]
    · rw [if_neg hb1, if_neg hb2]

/-- An index whose variant map sends the ten-character variant aaaaaaabbb
to the base word w10. -/
def idx10 : FuzzyIndex :=
  { base := ["w10"], variantToBase := [("aaaaaaabbb", ["w10"])], phoneticToBase := [],
    ngramIndex := [], synonymMap := [], config := cfgA }

/-- Counterexample to C10 as stated: with maxEditDistance 2 and the
ten-character query aaaaaaaaaa, the source matcher rejects the variant at
distance 3, while the dist matcher raises the effective max distance to 3
and accepts it, so the two match maps differ. -/
theorem fuzzy_src_dist_cex :
    findFuzzyMatches calculateLevenshteinDistance calculateLevenshteinDistance
        "aaaaaaaaaa" idx10 [] enProc cfgA = []
    ∧ distFindFuzzyMatches calculateLevenshteinDistance calculateLevenshteinDistance
        "aaaaaaaaaa" idx10 [] enProc cfgA =
        [("w10", fuzzySM "w10" "aaaaaaabbb" 3 "english")]
    ∧ findFuzzyMatches calculateLevenshteinDistance calculateLevenshteinDistance
        "aaaaaaaaaa" idx10 [] enProc cfgA ≠
      distFindFuzzyMatches calculateLevenshteinDistance calculateLevenshteinDistance
        "aaaaaaaaaa" idx10 [] enProc cfgA := by
  refine ⟨by decide, by decide, by decide⟩

/-- C10 (amended): for bound-respecting distance functions the source and
dist fuzzy matchers produce the same match map whenever the query is at
most 9 characters long or the configured max edit distance is at least 3;
for longer queries with a smaller configured distance they differ, per the
counterexample. -/
theorem fuzzy_src_dist_agreement (levFn damFn : String → String → Int → Int)
    (hlev : BoundRespecting levFn) (hdam : BoundRespecting damFn)
    (query : String) (index : FuzzyIndex) (m : Matches) (processor : LanguageProcessor)
    (config : FuzzyConfig) (h : query.length ≤ 9 ∨ 3 ≤ config.maxEditDistance) :
    findFuzzyMatches levFn damFn query index m processor config =
      distFindFuzzyMatches levFn damFn query index m processor config := by
  unfold findFuzzyMatches distFindFuzzyMatches
  dsimp only
  rw [effMaxDistance_eq config query h]
  exact foldl_congr_pointwise _ _ _ _
    (fun acc p _ => fuzzyStep_eq_distFuzzyStep levFn damFn hlev hdam query _ _ _ acc p)

/-- The length-difference toy distance, trivially bound-respecting. -/
def lenDiffFn : String → String → Int → Int :=
  fun a b _ => (((b.length : Int) - (a.length : Int)).natAbs : Int)

/-- Witness for C10 (amended) at a concrete five-character query. -/
theorem fuzzy_src_dist_agreement_witness :
    findFuzzyMatches lenDiffFn lenDiffFn "hello" idx4b [] enProc cfgA =
      distFindFuzzyMatches lenDiffFn lenDiffFn "hello" idx4b [] enProc cfgA :=
  fuzzy_src_dist_agreement lenDiffFn lenDiffFn (fun _ _ _ h => h) (fun _ _ _ h => h)
    "hello" idx4b [] enProc cfgA (Or.inl (by decide))

/-! C1 and C2: the modelled search pipeline around the embedded matchers. -/

/-- The index built from an empty corpus: no base words and no mappings. -/
def IsEmptyIndex (index : FuzzyIndex) : Prop :=
  index.base = [] ∧ index.variantToBase = [] ∧ index.phoneticToBase = [] ∧
    index.ngramIndex = [] ∧ index.synonymMap = []

theorem findExactMatches_empty (query : String) (index : FuzzyIndex) (m : Matches)
    (language : String) (hb : index.base = []) (hv : index.variantToBase = []) :
    findExactMatches query index m language = m := by
  unfold findExactMatches
  dsimp only
  rw [hb, hv]
  split_ifs <;> rfl

theorem findPrefixMatches_empty (query : String) (index : FuzzyIndex) (m : Matches)
    (language : String) (hv : index.variantToBase = []) :
    findPrefixMatches query index m language = m := by
  unfold findPrefixMatches
  dsimp only
  rw [hv]
  rfl

theorem findSubstringMatches_empty (query : String) (index : FuzzyIndex) (m : Matches)
    (language : String) (hv : index.variantToBase = []) :
    findSubstringMatches query index m language = m := by
  unfold findSubstringMatches
  dsimp only
  rw [hv]
  split_ifs <;> rfl

theorem findPhoneticMatches_empty (query : String) (processor : LanguageProcessor)
    (index : FuzzyIndex) (m : Matches) (hp : index.phoneticToBase = []) :
    findPhoneticMatches query processor index m = m := by
  unfold findPhoneticMatches
  dsimp only
  rw [hp]
  split_ifs <;> rfl

theorem findSynonymMatches_empty (query : String) (index : FuzzyIndex) (m : Matches)
    (hs : index.synonymMap = []) :
    findSynonymMatches query index m = m := by
  unfold findSynonymMatches
  rw [hs]
  rfl

theorem findNgramMatches_empty (gen : String → Nat → List String) (query : String)
    (index : FuzzyIndex) (m : Matches) (language : String) (n : Nat)
    (hn : index.ngramIndex = []) :
    findNgramMatches gen query index m language n = m := by
  unfold findNgramMatches
  dsimp only
  split_ifs with h1
  · rfl
  · have hcand : ∀ gs : List String, ∀ cw : List String,
        gs.foldl (ngramCandStep index) cw = cw := by
      intro gs
      induction gs with
      | nil => intro cw; rfl
      | cons g rest ih =>
        intro cw
        rw [List.foldl_cons]
        have hstep : ngramCandStep index cw g = cw := by
          unfold ngramCandStep
          rw [hn]
          rfl
        rw [hstep, ih]
    rw [hcand]
    rfl

theorem findFuzzyMatches_empty (levFn damFn : String → String → Int → Int)
    (query : String) (index : FuzzyIndex) (m : Matches) (processor : LanguageProcessor)
    (config : FuzzyConfig) (hv : index.variantToBase = []) :
    findFuzzyMatches levFn damFn query index m processor config = m := by
  unfold findFuzzyMatches
  dsimp only
  rw [hv]
  rfl

theorem runMatchers_empty (levFn damFn : String → String → Int → Int)
    (gen : String → Nat → List String) (query : String) (index : FuzzyIndex)
    (processor : LanguageProcessor) (h : IsEmptyIndex index) :
    runMatchers levFn damFn gen query index processor = [] := by
  obtain ⟨hb, hv, hp, hn, hs⟩ := h
  unfold runMatchers
  dsimp only
  rw [findExactMatches_empty _ _ _ _ hb hv, findPrefixMatches_empty _ _ _ _ hv,
    findSubstringMatches_empty _ _ _ _ hv, findPhoneticMatches_empty _ _ _ _ hp,
    findSynonymMatches_empty _ _ _ hs, findNgramMatches_empty _ _ _ _ _ _ hn,
    findFuzzyMatches_empty _ _ _ _ _ _ _ hv]

/-- C1: for every index, query, result cap, processor, distance functions,
n-gram generator and raw scoring policy, the modelled getSuggestions
returns a sequence sorted non-increasing by score whose scores all lie in
the closed unit interval. -/
theorem getSuggestions_sorted_scores_bounded (levFn damFn : String → String → Int → Int)
    (gen : String → Nat → List String) (policy : SearchMatch → Rat)
    (index : FuzzyIndex) (query : String) (maxResults : Nat)
    (processor : LanguageProcessor) :
    List.Sorted scoreGE (getSuggestions levFn damFn gen policy index query maxResults processor)
    ∧ ∀ r ∈ getSuggestions levFn damFn gen policy index query maxResults processor,
        0 ≤ r.score ∧ r.score ≤ 1 := by
  unfold getSuggestions
  split_ifs with h
  · exact ⟨List.sorted_nil, by simp⟩
  · constructor
    · exact List.Pairwise.sublist (List.take_sublist _ _)
        (List.sorted_insertionSort scoreGE _)
    · intro r hr
      have hr2 : r ∈ (scoreMatches policy
          (runMatchers levFn damFn gen query index processor)).insertionSort scoreGE :=
        List.mem_of_mem_take hr
      rw [List.mem_insertionSort] at hr2
      unfold scoreMatches at hr2
      rw [List.mem_map] at hr2
      obtain ⟨p, _, hpe⟩ := hr2
      have hsc : r.score = clampScore (policy p.2) := by rw [← hpe]
      rw [hsc]
      exact ⟨le_max_left 0 _, max_le (by norm_num) (min_le_left 1 _)⟩

/-- C2: the modelled getSuggestions returns the empty sequence for every
query shorter than the configured minQueryLength and for every query
against an empty index; as a total function it returns (never raises) in
particular when nothing matches. -/
theorem getSuggestions_short_or_empty (levFn damFn : String → String → Int → Int)
    (gen : String → Nat → List String) (policy : SearchMatch → Rat)
    (index : FuzzyIndex) (query : String) (maxResults : Nat)
    (processor : LanguageProcessor) :
    ((query.length : Int) < index.config.minQueryLength →
      getSuggestions levFn damFn gen policy index query maxResults processor = [])
    ∧ (IsEmptyIndex index →
      getSuggestions levFn damFn gen policy index query maxResults processor = []) := by
  constructor
  · intro h
    unfold getSuggestions
    rw [if_pos h]
  · intro h
    unfold getSuggestions
    split_ifs with hq
    · rfl
    · rw [runMatchers_empty levFn damFn gen query index processor h]
      simp [rankResults, scoreMatches]

/-- Witness for C2: the one-character query a on a two-character minimum
yields nothing on a populated index, and any query on the empty index
yields nothing. -/
theorem getSuggestions_short_or_empty_witness :
    getSuggestions calculateLevenshteinDistance calculateLevenshteinDistance generateNgrams
        (fun _ => 1)
        { base := ["apple"], variantToBase := [("apple", ["apple"])], phoneticToBase := [],
          ngramIndex := [], synonymMap := [],
          config := { cfgA with minQueryLength := 2 } } "a" 10 enProc = []
    ∧ getSuggestions calculateLevenshteinDistance calculateLevenshteinDistance generateNgrams
        (fun _ => 1)
        { base := [], variantToBase := [], phoneticToBase := [], ngramIndex := [],
          synonymMap := [], config := cfgA } "apple" 10 enProc = [] :=
  ⟨(getSuggestions_short_or_empty calculateLevenshteinDistance calculateLevenshteinDistance
      generateNgrams (fun _ => 1) _ "a" 10 enProc).1 (by decide),
    (getSuggestions_short_or_empty calculateLevenshteinDistance calculateLevenshteinDistance
      generateNgrams (fun _ => 1) _ "apple" 10 enProc).2 ⟨rfl, rfl, rfl, rfl, rfl⟩⟩

/-- The exact-match result for apple with clamped policy score 1. -/
def rApple : SuggestionResult :=
  { display := "apple", baseWord := "apple", isSynonym := false, score := 1,
    language := some "english" }

/-- Witness for C1: the concrete result list for the query apple on the
apple index is sorted, and its member has score inside the unit
interval. -/
theorem getSuggestions_sorted_scores_bounded_witness :
    List.Sorted scoreGE (getSuggestions calculateLevenshteinDistance
      calculateLevenshteinDistance generateNgrams (fun _ => 1) idxA "apple" 10 enProc)
    ∧ (0 ≤ rApple.score ∧ rApple.score ≤ 1) :=
  ⟨(getSuggestions_sorted_scores_bounded calculateLevenshteinDistance
      calculateLevenshteinDistance generateNgrams (fun _ => 1) idxA "apple" 10 enProc).1,
    (getSuggestions_sorted_scores_bounded calculateLevenshteinDistance
      calculateLevenshteinDistance generateNgrams (fun _ => 1) idxA "apple" 10 enProc).2
      _ (by decide)⟩

end FuzzyFindJS
